import Mathlib

/-!
Shallow embedding of the climbing-analysis pipeline
(`src/climbing_analysis.py`) and verification of its specification.

The script loads a force recording, converts samples from kilograms to
newtons, detects local maxima with scipy's `find_peaks`, groups peaks
into plateaus by timestamp gaps, and computes a rate-of-force-development
(RFD) record per plateau.

Numbers are modelled with exact rationals `ℚ`.  Index scans are modelled
with fuel-based structural recursion so that every definition evaluates
inside the kernel; the fuel supplied at each call site is shown to be
sufficient, so the functions agree with the unbounded loops of the source.
-/

namespace ClimbingAnalysis

/-- Acceleration due to gravity, `GRAVITY = 9.81` in the source. -/
def GRAVITY : ℚ := 981 / 100

/-- Grouping threshold for plateaus, `threshold = 5000` (ms) in the source. -/
def threshold : ℚ := 5000

/-- Baseline force threshold for onset detection, `0.1` N in the source. -/
def baseline : ℚ := 1 / 10

/-!
## Peak finder

scipy's `find_peaks(x)` with no keyword arguments returns exactly the
midpoints computed by `_local_maxima_1d`: starting at `i = 1` and while
`i < i_max = len(x) - 1`, if `x[i-1] < x[i]` it scans ahead past samples
equal to `x[i]`; if the first unequal sample (or the boundary sample at
`i_max`) is smaller than `x[i]`, the midpoint
`(left_edge + right_edge) // 2` of the flat run is recorded and the scan
resumes after the run.
-/

/-- Inner while-loop of `_local_maxima_1d`: first index `j ≥ i` with
`j ≥ iMax` or `x[j] ≠ v`.  `fuel ≥ iMax - i` makes it exact. -/
def scanAhead (x : List ℚ) (v : ℚ) (iMax : ℕ) : ℕ → ℕ → ℕ
  | 0, i => i
  | fuel + 1, i =>
    if i < iMax ∧ x.getD i 0 = v then scanAhead x v iMax fuel (i + 1) else i

/-- Outer loop of `_local_maxima_1d`, collecting flat-run midpoints.
`fuel ≥ iMax - i` makes it exact. -/
def localMaximaAux (x : List ℚ) (iMax : ℕ) : ℕ → ℕ → List ℕ
  | 0, _ => []
  | fuel + 1, i =>
    if i < iMax then
      if x.getD (i - 1) 0 < x.getD i 0 then
        let iAhead := scanAhead x (x.getD i 0) iMax (iMax - i) (i + 1)
        if x.getD iAhead 0 < x.getD i 0 then
          (i + (iAhead - 1)) / 2 :: localMaximaAux x iMax fuel (iAhead + 1)
        else
          localMaximaAux x iMax fuel (i + 1)
      else
        localMaximaAux x iMax fuel (i + 1)
    else []

/-- `find_peaks(data['samples'])` of the source (line 35): indices of the
local maxima of the signal, flat runs reported at their midpoint. -/
def findPeaks (x : List ℚ) : List ℕ :=
  localMaximaAux x (x.length - 1) x.length 1

/-!
## Plateau segmenter (source lines 44-54)

`current_plateau = [peaks[0]]`; every later peak joins the current plateau
when its timestamp is less than `threshold` past the previous peak's
timestamp, otherwise it starts a new plateau.  `peaks[0]` on an empty peak
list raises `IndexError`, modelled as `none`.
-/

/-- Loop body of the plateau grouping: `prev` is the previous peak,
`current` the open plateau (nonempty), `rest` the remaining peaks. -/
def segmentAux (ts : ℕ → ℚ) (prev : ℕ) (current : List ℕ) :
    List ℕ → List (List ℕ)
  | [] => [current]
  | p :: rest =>
    if ts p - ts prev < threshold then
      segmentAux ts p (current ++ [p]) rest
    else
      current :: segmentAux ts p [p] rest

/-- Plateau grouping over the whole peak list; `none` models the
`IndexError` raised by `peaks[0]` on an empty peak list. -/
def segmentPlateaus (ts : ℕ → ℚ) : List ℕ → Option (List (List ℕ))
  | [] => none
  | p :: rest => some (segmentAux ts p [p] rest)

/-!
## RFD calculator (source lines 60-97)
-/

/-- Python's `max(plateau, key=...)` seeded with `best`: replaces the
current best only on a strictly larger key, so ties keep the earliest
element. -/
def maxByKeyAux (key : ℕ → ℚ) (best : ℕ) : List ℕ → ℕ
  | [] => best
  | x :: xs =>
    if key best < key x then maxByKeyAux key x xs else maxByKeyAux key best xs

/-- Backward onset scan (source lines 65-69): checks indices
`k-1, k-2, …, 0` and returns the first whose signal is `≤ baseline`;
`fallback` when none qualifies.  The argument is one past the first index
checked. -/
def scanBack (sig : ℕ → ℚ) (fallback : ℕ) : ℕ → ℕ
  | 0 => fallback
  | k + 1 => if sig k ≤ baseline then k else scanBack sig fallback k

/-- Onset search for a plateau whose first peak is `p`:
`start_idx = p; for idx in range(p-1, -1, -1): if signal[idx] <= 0.1:
start_idx = idx; break`.  When no sample before `p` is at baseline the
loop finishes without assigning, leaving `start_idx = p`. -/
def findStartIdx (sig : ℕ → ℚ) (p : ℕ) : ℕ :=
  scanBack sig p p

/-- One row of `rfd_results` (source lines 81-89). -/
structure RFDResult where
  plateauStartTime : ℚ
  peakTime : ℚ
  timeToPeak : ℚ
  peakValueKg : ℚ
  peakValueN : ℚ
  rfdKgPerS : Option ℚ
  rfdNPerS : Option ℚ
  deriving DecidableEq

/-- Source line 62: `highest_peak_idx = max(plateau, key=lambda idx:
signal.iloc[idx])` on the plateau `p0 :: rest`. -/
def highestPeakIdx (sig : ℕ → ℚ) (p0 : ℕ) (rest : List ℕ) : ℕ :=
  maxByKeyAux (fun idx => sig idx) p0 rest

/-- Source line 74: `time_to_peak = (peak_time - start_time) / 1000` for
the plateau `p0 :: rest`. -/
def timeToPeakOf (ts sig : ℕ → ℚ) (p0 : ℕ) (rest : List ℕ) : ℚ :=
  (ts (highestPeakIdx sig p0 rest) - ts (findStartIdx sig p0)) / 1000

/-- Source line 78: `rfd = peak_value / time_to_peak if time_to_peak > 0
else None`. -/
def rfdOf (ts sig : ℕ → ℚ) (p0 : ℕ) (rest : List ℕ) : Option ℚ :=
  if 0 < timeToPeakOf ts sig p0 rest then
    some (sig (highestPeakIdx sig p0 rest) / timeToPeakOf ts sig p0 rest)
  else none

/-- Body of the per-plateau loop (source lines 60-89); `none` models the
`ValueError` Python's `max` raises on an empty plateau (never produced by
the segmenter). -/
def rfdOne (ts sig : ℕ → ℚ) : List ℕ → Option RFDResult
  | [] => none
  | p0 :: rest =>
    some
      { plateauStartTime := ts (findStartIdx sig p0)
        peakTime := ts (highestPeakIdx sig p0 rest)
        timeToPeak := timeToPeakOf ts sig p0 rest
        peakValueKg := sig (highestPeakIdx sig p0 rest) / GRAVITY
        peakValueN := sig (highestPeakIdx sig p0 rest)
        rfdKgPerS := (rfdOf ts sig p0 rest).map (fun r => r / GRAVITY)
        rfdNPerS := rfdOf ts sig p0 rest }

/-- The per-plateau loop over all plateaus, in order; an exception in any
iteration aborts the run (`none`). -/
def computeRFD (ts sig : ℕ → ℚ) (plateaus : List (List ℕ)) :
    Option (List RFDResult) :=
  plateaus.mapM (rfdOne ts sig)

/-- The core pipeline after ingestion: peak finding, plateau segmentation
and RFD computation over zero-based timestamps (ms) and forces (N).
`none` models an uncaught exception. -/
def analyze (ts sig : List ℚ) : Option (List RFDResult) :=
  let peaks := findPeaks sig
  match segmentPlateaus (fun i => ts.getD i 0) peaks with
  | none => none
  | some plateaus =>
      computeRFD (fun i => ts.getD i 0) (fun i => sig.getD i 0) plateaus

/-- Ingestion's unit conversion (source line 27): kilograms to newtons. -/
def convertSamples (raw : List ℚ) : List ℚ :=
  raw.map (fun s => s * GRAVITY)

/-!
## Concrete example data

The worked scenario of the specification, and small signals exercising
the edge cases.
-/

/-- Force signal (N) of the spec's worked scenario. -/
def exSig : List ℚ := [0, 0, 0, 50, 0, 0, 0, 80, 0, 0]

/-- The scenario signal as an indexing function, as the RFD calculator
consumes it. -/
def exSigF (i : ℕ) : ℚ := exSig.getD i 0

/-- Timestamps (ms) of the spec's worked scenario. -/
def exTsL : List ℚ := [0, 100, 200, 300, 400, 500, 600, 700, 800, 900]

/-- The scenario timestamps as an indexing function. -/
def exTsF (i : ℕ) : ℚ := exTsL.getD i 0

/-- A globally non-decreasing timestamp function extending the scenario's
100 ms sampling grid to all of `ℕ`. -/
def exTsLin (i : ℕ) : ℚ := 100 * i

/-- Coarser timestamps, 3000 ms apart: three consecutive peaks chain into
one plateau whose total span, 6000 ms, exceeds the 5000 ms threshold. -/
def exTsCoarse (i : ℕ) : ℚ := 3000 * i

/-- A constant timestamp function (trivially non-decreasing). -/
def tsZero (_ : ℕ) : ℚ := 0

/-- A signal whose samples never return to the 0.1 N baseline: the onset
scan for its single peak at index 1 finds no qualifying sample. -/
def sigOne (i : ℕ) : ℚ := ([1, 5, 1] : List ℚ).getD i 0

/-- The RFD row the pipeline produces on the worked scenario. -/
def exResult : RFDResult :=
  { plateauStartTime := 200
    peakTime := 700
    timeToPeak := 1 / 2
    peakValueKg := 8000 / 981
    peakValueN := 80
    rfdKgPerS := some (16000 / 981)
    rfdNPerS := some 160 }

/-!
## Properties of the peak finder
-/

theorem scanAhead_ge (x : List ℚ) (v : ℚ) (iMax : ℕ) :
    ∀ fuel i, i ≤ scanAhead x v iMax fuel i := by
  intro fuel
  induction fuel with
  | zero => intro i; simp [scanAhead]
  | succ n ih =>
    intro i
    simp only [scanAhead]
    split
    · exact le_trans (Nat.le_succ i) (ih (i + 1))
    · exact le_refl i

theorem scanAhead_le (x : List ℚ) (v : ℚ) (iMax : ℕ) :
    ∀ fuel i, iMax - i ≤ fuel → i ≤ iMax → scanAhead x v iMax fuel i ≤ iMax := by
  intro fuel
  induction fuel with
  | zero =>
    intro i h hi
    have hEq : i = iMax := by omega
    simp [scanAhead, hEq]
  | succ n ih =>
    intro i h hi
    simp only [scanAhead]
    split
    case isTrue hc => exact ih (i + 1) (by omega) (by omega)
    case isFalse _ => exact hi

theorem scanAhead_eq_v (x : List ℚ) (v : ℚ) (iMax : ℕ) :
    ∀ fuel i k, i ≤ k → k < scanAhead x v iMax fuel i → x.getD k 0 = v := by
  intro fuel
  induction fuel with
  | zero =>
    intro i k hik hk
    simp only [scanAhead] at hk
    omega
  | succ n ih =>
    intro i k hik hk
    simp only [scanAhead] at hk
    split at hk
    case isTrue hc =>
      rcases Nat.eq_or_lt_of_le hik with rfl | hlt
      · exact hc.2
      · exact ih (i + 1) k hlt hk
    case isFalse _ => omega

theorem localMaximaAux_ge (x : List ℚ) (iMax : ℕ) :
    ∀ fuel i m, m ∈ localMaximaAux x iMax fuel i → i ≤ m := by
  intro fuel
  induction fuel with
  | zero => intro i m hm; simp [localMaximaAux] at hm
  | succ n ih =>
    intro i m hm
    simp only [localMaximaAux] at hm
    split at hm
    case isTrue hi =>
      split at hm
      case isTrue hrise =>
        split at hm
        case isTrue hfall =>
          have hgeA := scanAhead_ge x (x.getD i 0) iMax (iMax - i) (i + 1)
          rcases List.mem_cons.mp hm with rfl | hm'
          · omega
          · have := ih _ _ hm'
            omega
        case isFalse _ => exact le_trans (Nat.le_succ i) (ih _ _ hm)
      case isFalse _ => exact le_trans (Nat.le_succ i) (ih _ _ hm)
    case isFalse _ => simp at hm

theorem localMaximaAux_mem (x : List ℚ) (iMax : ℕ) :
    ∀ fuel i, 1 ≤ i → ∀ m ∈ localMaximaAux x iMax fuel i,
      1 ≤ m ∧ m < iMax ∧ x.getD (m - 1) 0 ≤ x.getD m 0 ∧
        x.getD (m + 1) 0 ≤ x.getD m 0 := by
  intro fuel
  induction fuel with
  | zero => intro i _ m hm; simp [localMaximaAux] at hm
  | succ n ih =>
    intro i hi1 m hm
    simp only [localMaximaAux] at hm
    split at hm
    case isTrue hi =>
      split at hm
      case isTrue hrise =>
        split at hm
        case isTrue hfall =>
          rcases List.mem_cons.mp hm with rfl | hm'
          · set v := x.getD i 0 with hv
            set iA := scanAhead x v iMax (iMax - i) (i + 1) with hiA
            have hgeA : i + 1 ≤ iA := scanAhead_ge x v iMax (iMax - i) (i + 1)
            have hleA : iA ≤ iMax :=
              scanAhead_le x v iMax (iMax - i) (i + 1) (by omega) (by omega)
            have hval : ∀ k, i ≤ k → k < iA → x.getD k 0 = v := by
              intro k hk1 hk2
              rcases Nat.eq_or_lt_of_le hk1 with rfl | hk
              · exact hv.symm
              · exact scanAhead_eq_v x v iMax (iMax - i) (i + 1) k hk hk2
            have hmid1 : i ≤ (i + (iA - 1)) / 2 := by omega
            have hmid2 : (i + (iA - 1)) / 2 ≤ iA - 1 := by omega
            have hmv : x.getD ((i + (iA - 1)) / 2) 0 = v :=
              hval _ hmid1 (by omega)
            refine ⟨by omega, by omega, ?_, ?_⟩
            · rcases Nat.eq_or_lt_of_le hmid1 with hEq | hlt
              · rw [hmv, ← hEq]
                exact le_of_lt hrise
              · rw [hmv, hval ((i + (iA - 1)) / 2 - 1) (by omega) (by omega)]
            · rcases Nat.lt_or_ge ((i + (iA - 1)) / 2 + 1) iA with hlt | hge
              · rw [hmv, hval ((i + (iA - 1)) / 2 + 1) (by omega) hlt]
              · have hEq : (i + (iA - 1)) / 2 + 1 = iA := by omega
                rw [hmv, hEq]
                exact le_of_lt hfall
          · exact ih _ (by omega) m hm'
        case isFalse _ => exact ih _ (by omega) m hm
      case isFalse _ => exact ih _ (by omega) m hm
    case isFalse _ => simp at hm

theorem localMaximaAux_pairwise (x : List ℚ) (iMax : ℕ) :
    ∀ fuel i, List.Pairwise (fun a b => a < b) (localMaximaAux x iMax fuel i) := by
  intro fuel
  induction fuel with
  | zero => intro i; simp [localMaximaAux]
  | succ n ih =>
    intro i
    simp only [localMaximaAux]
    split
    case isTrue hi =>
      split
      case isTrue hrise =>
        split
        case isTrue hfall =>
          refine List.pairwise_cons.mpr ⟨?_, ih _⟩
          intro b hb
          have hgeA := scanAhead_ge x (x.getD i 0) iMax (iMax - i) (i + 1)
          have hgeB := localMaximaAux_ge x iMax n _ b hb
          omega
        case isFalse _ => exact ih _
      case isFalse _ => exact ih _
    case isFalse _ => exact List.Pairwise.nil

theorem findPeaks_pairwise (x : List ℚ) :
    List.Pairwise (fun a b => a < b) (findPeaks x) :=
  localMaximaAux_pairwise x (x.length - 1) x.length 1

/-!
## Properties of the plateau segmenter
-/

theorem segmentAux_flatten (ts : ℕ → ℚ) :
    ∀ rest prev current, (segmentAux ts prev current rest).flatten = current ++ rest := by
  intro rest
  induction rest with
  | nil => intro prev current; simp [segmentAux]
  | cons p rest ih =>
    intro prev current
    simp only [segmentAux]
    split
    · rw [ih]
      simp
    · rw [List.flatten_cons, ih]
      simp

theorem segmentAux_ne_nil (ts : ℕ → ℚ) :
    ∀ rest prev current, current ≠ [] →
      ∀ pl ∈ segmentAux ts prev current rest, pl ≠ [] := by
  intro rest
  induction rest with
  | nil =>
    intro prev current hc pl hpl
    simp only [segmentAux, List.mem_singleton] at hpl
    exact hpl ▸ hc
  | cons p rest ih =>
    intro prev current hc pl hpl
    simp only [segmentAux] at hpl
    split at hpl
    · exact ih p (current ++ [p]) (by simp) pl hpl
    · rcases List.mem_cons.mp hpl with rfl | h
      · exact hc
      · exact ih p [p] (by simp) pl h

theorem segmentAux_first (ts : ℕ → ℚ) :
    ∀ rest prev current, ∃ ext out,
      segmentAux ts prev current rest = (current ++ ext) :: out := by
  intro rest
  induction rest with
  | nil => intro prev current; exact ⟨[], [], by simp [segmentAux]⟩
  | cons p rest ih =>
    intro prev current
    simp only [segmentAux]
    split
    · obtain ⟨ext, out, h⟩ := ih p (current ++ [p])
      exact ⟨p :: ext, out, by rw [h]; simp⟩
    · exact ⟨[], segmentAux ts p [p] rest, by simp⟩

theorem segmentAux_chain (ts : ℕ → ℚ) :
    ∀ rest prev current,
      List.Chain' (fun a b => ts b - ts a < threshold) current →
      current.getLast? = some prev →
      ∀ pl ∈ segmentAux ts prev current rest,
        List.Chain' (fun a b => ts b - ts a < threshold) pl := by
  intro rest
  induction rest with
  | nil =>
    intro prev current hch _ pl hpl
    simp only [segmentAux, List.mem_singleton] at hpl
    exact hpl ▸ hch
  | cons p rest ih =>
    intro prev current hch hlast pl hpl
    simp only [segmentAux] at hpl
    split at hpl
    case isTrue hlt =>
      refine ih p (current ++ [p]) ?_ (List.getLast?_concat current) pl hpl
      refine List.chain'_append.mpr ⟨hch, List.chain'_singleton p, ?_⟩
      intro a ha b hb
      rw [hlast, Option.mem_some_iff] at ha
      simp only [List.head?_cons, Option.mem_some_iff] at hb
      rw [← ha, ← hb]
      exact hlt
    case isFalse hge =>
      rcases List.mem_cons.mp hpl with rfl | h
      · exact hch
      · exact ih p [p] (List.chain'_singleton p) rfl pl h

theorem segmentAux_gap (ts : ℕ → ℚ) :
    ∀ rest prev current, current.getLast? = some prev →
      List.Chain'
        (fun pl1 pl2 => ∀ a b, pl1.getLast? = some a → pl2.head? = some b →
          threshold ≤ ts b - ts a)
        (segmentAux ts prev current rest) := by
  intro rest
  induction rest with
  | nil =>
    intro prev current _
    simp only [segmentAux]
    exact List.chain'_singleton current
  | cons p rest ih =>
    intro prev current hlast
    simp only [segmentAux]
    split
    case isTrue hlt => exact ih p (current ++ [p]) (List.getLast?_concat current)
    case isFalse hge =>
      refine List.chain'_cons'.mpr ⟨?_, ih p [p] rfl⟩
      intro pl2 hpl2 a b ha hb
      obtain ⟨ext, out, heq⟩ := segmentAux_first ts rest p [p]
      rw [heq] at hpl2
      simp only [List.head?_cons, Option.mem_some_iff] at hpl2
      rw [← hpl2] at hb
      simp only [List.cons_append, List.head?_cons, Option.some.injEq] at hb
      rw [hlast, Option.some.injEq] at ha
      rw [← ha, ← hb]
      exact le_of_not_lt hge

theorem mem_flatten_sublist {α : Type} {l : List α} :
    ∀ {L : List (List α)}, l ∈ L → l.Sublist L.flatten := by
  intro L
  induction L with
  | nil => intro h; simp at h
  | cons a L ih =>
    intro h
    rcases List.mem_cons.mp h with rfl | h'
    · rw [List.flatten_cons]
      exact List.sublist_append_left l L.flatten
    · rw [List.flatten_cons]
      exact (ih h').trans (List.sublist_append_right a L.flatten)

/-!
## Properties of the highest-peak selection
-/

theorem maxByKeyAux_mem (key : ℕ → ℚ) :
    ∀ rest best, maxByKeyAux key best rest ∈ best :: rest := by
  intro rest
  induction rest with
  | nil => intro best; simp [maxByKeyAux]
  | cons x xs ih =>
    intro best
    simp only [maxByKeyAux]
    split
    · rcases List.mem_cons.mp (ih x) with hEq | h
      · rw [hEq]
        exact List.mem_cons_of_mem best (List.mem_cons_self x xs)
      · exact List.mem_cons_of_mem best (List.mem_cons_of_mem x h)
    · rcases List.mem_cons.mp (ih best) with hEq | h
      · rw [hEq]
        exact List.mem_cons_self best (x :: xs)
      · exact List.mem_cons_of_mem best (List.mem_cons_of_mem x h)

theorem maxByKeyAux_le (key : ℕ → ℚ) :
    ∀ rest best y, y ∈ best :: rest → key y ≤ key (maxByKeyAux key best rest) := by
  intro rest
  induction rest with
  | nil =>
    intro best y hy
    rw [List.mem_singleton] at hy
    rw [hy]
    simp [maxByKeyAux]
  | cons x xs ih =>
    intro best y hy
    rcases List.mem_cons.mp hy with rfl | hy'
    · simp only [maxByKeyAux]
      split
      case isTrue hlt =>
        exact le_trans (le_of_lt hlt) (ih x x (List.mem_cons_self x xs))
      case isFalse _ => exact ih y y (List.mem_cons_self y xs)
    · rcases List.mem_cons.mp hy' with rfl | hy''
      · simp only [maxByKeyAux]
        split
        case isTrue _ => exact ih y y (List.mem_cons_self y xs)
        case isFalse hnlt =>
          exact le_trans (le_of_not_lt hnlt) (ih best best (List.mem_cons_self best xs))
      · simp only [maxByKeyAux]
        split
        case isTrue _ => exact ih x y (List.mem_cons_of_mem x hy'')
        case isFalse _ => exact ih best y (List.mem_cons_of_mem best hy'')

theorem maxByKeyAux_first (key : ℕ → ℚ) :
    ∀ rest best, ∃ l1 l2, best :: rest = l1 ++ maxByKeyAux key best rest :: l2 ∧
      ∀ y ∈ l1, key y < key (maxByKeyAux key best rest) := by
  intro rest
  induction rest with
  | nil =>
    intro best
    exact ⟨[], [], by simp [maxByKeyAux], by simp⟩
  | cons x xs ih =>
    intro best
    simp only [maxByKeyAux]
    split
    case isTrue hlt =>
      obtain ⟨l1, l2, heq, hstrict⟩ := ih x
      refine ⟨best :: l1, l2, by rw [List.cons_append, ← heq], ?_⟩
      intro y hy
      rcases List.mem_cons.mp hy with rfl | hy'
      · exact lt_of_lt_of_le hlt (maxByKeyAux_le key xs x x (List.mem_cons_self x xs))
      · exact hstrict y hy'
    case isFalse hnlt =>
      obtain ⟨l1, l2, heq, hstrict⟩ := ih best
      cases l1 with
      | nil =>
        rw [List.nil_append, List.cons.injEq] at heq
        refine ⟨[], x :: l2, ?_, by simp⟩
        rw [List.nil_append, ← heq.1, heq.2]
      | cons a l1' =>
        rw [List.cons_append, List.cons.injEq] at heq
        refine ⟨best :: x :: l1', l2, ?_, ?_⟩
        · rw [List.cons_append, List.cons_append]
          exact congrArg (fun t => best :: x :: t) heq.2
        · intro y hy
          have hbest : key best < key (maxByKeyAux key best xs) := by
            have ha := hstrict a (List.mem_cons_self a l1')
            rwa [← heq.1] at ha
          rcases List.mem_cons.mp hy with rfl | hy'
          · exact hbest
          · rcases List.mem_cons.mp hy' with rfl | hy''
            · exact lt_of_le_of_lt (le_of_not_lt hnlt) hbest
            · exact hstrict y (List.mem_cons_of_mem a hy'')

/-!
## Properties of the onset scan
-/

theorem scanBack_le (sig : ℕ → ℚ) (fallback : ℕ) :
    ∀ k, k ≤ fallback → scanBack sig fallback k ≤ fallback := by
  intro k
  induction k with
  | zero => intro _; simp [scanBack]
  | succ n ih =>
    intro h
    simp only [scanBack]
    split
    · omega
    · exact ih (by omega)

theorem scanBack_not_found (sig : ℕ → ℚ) (fallback : ℕ) :
    ∀ k, (∀ i, i < k → ¬ sig i ≤ baseline) → scanBack sig fallback k = fallback := by
  intro k
  induction k with
  | zero => intro _; rfl
  | succ n ih =>
    intro h
    simp only [scanBack]
    split
    case isTrue hle => exact absurd hle (h n (Nat.lt_succ_self n))
    case isFalse _ => exact ih (fun i hi => h i (by omega))

theorem scanBack_found (sig : ℕ → ℚ) (fallback : ℕ) :
    ∀ k i, i < k → sig i ≤ baseline →
      scanBack sig fallback k < k ∧ sig (scanBack sig fallback k) ≤ baseline := by
  intro k
  induction k with
  | zero => intro i hi _; exact absurd hi (Nat.not_lt_zero i)
  | succ n ih =>
    intro i hi hle
    simp only [scanBack]
    split
    case isTrue h => exact ⟨Nat.lt_succ_self n, h⟩
    case isFalse h =>
      have hin : i < n := by
        rcases Nat.lt_succ_iff_lt_or_eq.mp hi with h' | rfl
        · exact h'
        · exact absurd hle h
      have hr := ih i hin hle
      exact ⟨by omega, hr.2⟩

/-!
## A positional description of the result loop
-/

theorem mapM_some_get {α β : Type} (f : α → Option β) :
    ∀ (l : List α) (res : List β), l.mapM f = some res →
      ∀ (i : ℕ) (pl : α), l[i]? = some pl → res[i]? = f pl := by
  intro l
  induction l with
  | nil => intro res h i pl hpl; simp at hpl
  | cons a l ih =>
    intro res h i pl hpl
    rw [List.mapM_cons] at h
    cases hfa : f a with
    | none => rw [hfa] at h; simp at h
    | some b =>
      rw [hfa] at h
      cases hml : l.mapM f with
      | none => rw [hml] at h; simp at h
      | some bs =>
        rw [hml] at h
        have hcons : b :: bs = res := Option.some.inj h
        subst hcons
        cases i with
        | zero =>
          simp only [List.getElem?_cons_zero, Option.some.injEq] at hpl
          rw [← hpl, hfa]
          simp
        | succ n =>
          simp only [List.getElem?_cons_succ] at hpl ⊢
          exact ih bs hml n pl hpl

/-!
## Small facts about the example data
-/

theorem monotone_tsZero : Monotone tsZero :=
  fun _ _ _ => le_refl 0

theorem monotone_exTsLin : Monotone exTsLin := by
  intro a b hab
  unfold exTsLin
  exact mul_le_mul_of_nonneg_left (Nat.cast_le.mpr hab) (by norm_num)

theorem gravity_ne_zero : GRAVITY ≠ 0 := by
  norm_num [GRAVITY]

/-!
## The claims
-/

set_option maxRecDepth 4000 in
/-- C1 (counterexample): for the signal `[1, 5, 1]` (N) the peak finder
reports the single peak index 1, and no sample before it is at the 0.1 N
baseline; the onset search then returns index 1 — equal to the plateau's
first peak index, and not index 0 — refuting both that the onset is
always strictly below the first peak index and that it falls back to
index 0. -/
theorem C1_onset_counterexample :
    findPeaks [1, 5, 1] = [1] ∧ baseline < sigOne 0 ∧
      findStartIdx sigOne 1 = 1 ∧ ¬ findStartIdx sigOne 1 < 1 := by
  with_unfolding_all decide

/-- C1 (amended): the onset search returns an index between 0 and the
plateau's first peak index inclusive.  When some sample before the first
peak has force ≤ 0.1 N it returns such an index strictly below the first
peak; when no such sample exists it returns the first peak index itself
(not index 0). -/
theorem C1_onset_range (sig : ℕ → ℚ) (p : ℕ) :
    findStartIdx sig p ≤ p ∧
    ((∀ i, i < p → ¬ sig i ≤ baseline) → findStartIdx sig p = p) ∧
    (∀ i, i < p → sig i ≤ baseline →
      findStartIdx sig p < p ∧ sig (findStartIdx sig p) ≤ baseline) := by
  refine ⟨scanBack_le sig p p (le_refl p), scanBack_not_found sig p p, ?_⟩
  intro i hi hle
  exact scanBack_found sig p p i hi hle

set_option maxRecDepth 4000 in
/-- C1 (witness): the amended theorem applied to the two concrete
situations: an all-above-baseline prefix (`sigOne`, result = first peak
index 1) and the worked scenario (result 2 < 3, at baseline). -/
theorem C1_onset_range_witness :
    findStartIdx sigOne 1 = 1 ∧ findStartIdx exSigF 3 < 3 ∧
      exSigF (findStartIdx exSigF 3) ≤ baseline :=
  ⟨(C1_onset_range sigOne 1).2.1 (by with_unfolding_all decide),
   ((C1_onset_range exSigF 3).2.2 2 (by decide)
      (by with_unfolding_all decide)).1,
   ((C1_onset_range exSigF 3).2.2 2 (by decide)
      (by with_unfolding_all decide)).2⟩

set_option maxRecDepth 4000 in
/-- C2: a recording with fewer than 3 samples yields zero peaks, and the
pipeline then aborts — the source evaluates `peaks[0]` (line 46) on an
empty peak array, raising an uncaught `IndexError` — instead of
reporting an empty result set as the specification requires. -/
theorem C2_no_peaks_aborts :
    findPeaks [5, 7] = [] ∧ analyze [0, 100] [5, 7] = none := by
  exact ⟨by with_unfolding_all rfl, by with_unfolding_all rfl⟩

/-- C3: for every non-empty peak list (under non-decreasing timestamps)
the segmenter returns plateaus that are all non-empty and whose
concatenation, in order, is exactly the peak list: no peak omitted or
duplicated, plateau order preserving peak order. -/
theorem C3_partition (ts : ℕ → ℚ) (peaks : List ℕ) (hne : peaks ≠ [])
    (_hmono : Monotone ts) (plateaus : List (List ℕ))
    (hseg : segmentPlateaus ts peaks = some plateaus) :
    plateaus.flatten = peaks ∧ ∀ pl ∈ plateaus, pl ≠ [] := by
  cases peaks with
  | nil => exact absurd rfl hne
  | cons p rest =>
    simp only [segmentPlateaus, Option.some.injEq] at hseg
    subst hseg
    constructor
    · rw [segmentAux_flatten]
      rfl
    · exact segmentAux_ne_nil ts rest p [p] (by simp)

set_option maxRecDepth 4000 in
/-- C3 (witness): the partition theorem applied to the worked scenario's
peaks `[3, 7]` under constant timestamps. -/
theorem C3_partition_witness :
    ([[3, 7]] : List (List ℕ)).flatten = [3, 7] ∧ ([3, 7] : List ℕ) ≠ [] :=
  ⟨(C3_partition tsZero [3, 7] (by decide) monotone_tsZero [[3, 7]]
      (by with_unfolding_all rfl)).1,
   (C3_partition tsZero [3, 7] (by decide) monotone_tsZero [[3, 7]]
      (by with_unfolding_all rfl)).2 [3, 7] (by decide)⟩

set_option maxRecDepth 4000 in
/-- C4: in every segmenter output, consecutive peak timestamps within a
plateau differ by < 5000 ms, and the gap from a plateau's last peak to
the next plateau's first peak is ≥ 5000 ms; closeness is chained from the
immediately preceding peak, so one plateau's total span can reach the
threshold, witnessed by three peaks 3000 ms apart spanning 6000 ms. -/
theorem C4_plateau_gaps (ts : ℕ → ℚ) (peaks : List ℕ)
    (plateaus : List (List ℕ))
    (hseg : segmentPlateaus ts peaks = some plateaus) :
    (∀ pl ∈ plateaus, List.Chain' (fun a b => ts b - ts a < threshold) pl) ∧
    List.Chain'
      (fun pl1 pl2 => ∀ a b, pl1.getLast? = some a → pl2.head? = some b →
        threshold ≤ ts b - ts a) plateaus ∧
    segmentPlateaus exTsCoarse [0, 1, 2] = some [[0, 1, 2]] ∧
    threshold ≤ exTsCoarse 2 - exTsCoarse 0 := by
  cases peaks with
  | nil => simp [segmentPlateaus] at hseg
  | cons p rest =>
    simp only [segmentPlateaus, Option.some.injEq] at hseg
    subst hseg
    refine ⟨?_, ?_, by with_unfolding_all rfl, by with_unfolding_all decide⟩
    · exact segmentAux_chain ts rest p [p] (List.chain'_singleton p) rfl
    · exact segmentAux_gap ts rest p [p] rfl

set_option maxRecDepth 4000 in
/-- C4 (witness): the gap theorem applied to the single plateau `[3, 7]`
under constant timestamps. -/
theorem C4_plateau_gaps_witness :
    List.Chain' (fun a b => tsZero b - tsZero a < threshold) [3, 7] :=
  (C4_plateau_gaps tsZero [3, 7] [[3, 7]]
    (by with_unfolding_all rfl)).1 [3, 7] (by decide)

/-- C5: in every RFD row both RFD fields are `none` (no sentinel number)
exactly when time-to-peak ≤ 0, and otherwise hold exactly
peak force / time-to-peak (and its kg-scaled version); and each result
row is a function of its own plateau alone, so a degenerate time-to-peak
in one plateau cannot change the row computed for any other. -/
theorem C5_rfd_null (ts sig : ℕ → ℚ) (pl : List ℕ) (r : RFDResult)
    (hr : rfdOne ts sig pl = some r) :
    (r.timeToPeak ≤ 0 → r.rfdNPerS = none ∧ r.rfdKgPerS = none) ∧
    (0 < r.timeToPeak →
      r.rfdNPerS = some (r.peakValueN / r.timeToPeak) ∧
      r.rfdKgPerS = some (r.peakValueN / r.timeToPeak / GRAVITY)) ∧
    (∀ (plateaus : List (List ℕ)) (res : List RFDResult) (i : ℕ)
        (pli : List ℕ),
      computeRFD ts sig plateaus = some res → plateaus[i]? = some pli →
        res[i]? = rfdOne ts sig pli) := by
  refine ⟨?_, ?_, ?_⟩
  · intro h
    cases pl with
    | nil => simp [rfdOne] at hr
    | cons p0 rest =>
      simp only [rfdOne, Option.some.injEq] at hr
      subst hr
      dsimp only at h ⊢
      simp [rfdOf, not_lt.mpr h]
  · intro h
    cases pl with
    | nil => simp [rfdOne] at hr
    | cons p0 rest =>
      simp only [rfdOne, Option.some.injEq] at hr
      subst hr
      dsimp only at h ⊢
      simp [rfdOf, h]
  · intro plateaus res i pli hres hpli
    exact mapM_some_get (rfdOne ts sig) plateaus res hres i pli hpli

set_option maxRecDepth 4000 in
/-- C5 (witness): the null-semantics theorem applied to the worked
scenario's single plateau, whose time-to-peak 0.5 s is positive. -/
theorem C5_rfd_null_witness :
    exResult.rfdNPerS = some (exResult.peakValueN / exResult.timeToPeak) ∧
      ([exResult] : List RFDResult)[0]? = rfdOne exTsF exSigF [3, 7] :=
  ⟨((C5_rfd_null exTsF exSigF [3, 7] exResult (by with_unfolding_all rfl)).2.1
      (by with_unfolding_all decide)).1,
   (C5_rfd_null exTsF exSigF [3, 7] exResult
      (by with_unfolding_all rfl)).2.2 [[3, 7]]
     [exResult] 0 [3, 7] (by with_unfolding_all rfl) (by decide)⟩

/-- C6: highest-peak selection is the deterministic first-maximum scan:
the selected index belongs to the plateau, its force is maximal in the
plateau, and every plateau element strictly before it has strictly
smaller force — so among duplicated maxima the first is returned. -/
theorem C6_highest_first (sig : ℕ → ℚ) (p0 : ℕ) (rest : List ℕ) :
    highestPeakIdx sig p0 rest ∈ p0 :: rest ∧
    (∀ y ∈ p0 :: rest, sig y ≤ sig (highestPeakIdx sig p0 rest)) ∧
    ∃ l1 l2, p0 :: rest = l1 ++ highestPeakIdx sig p0 rest :: l2 ∧
      ∀ y ∈ l1, sig y < sig (highestPeakIdx sig p0 rest) := by
  refine ⟨maxByKeyAux_mem _ rest p0, ?_, maxByKeyAux_first _ rest p0⟩
  intro y hy
  exact maxByKeyAux_le _ rest p0 y hy

/-- C6 (witness): the selection theorem applied to the scenario's plateau
`[3, 7]`: the selected index is in the plateau and dominates index 3. -/
theorem C6_highest_first_witness :
    highestPeakIdx exSigF 3 [7] ∈ ([3, 7] : List ℕ) ∧
      exSigF 3 ≤ exSigF (highestPeakIdx exSigF 3 [7]) :=
  ⟨(C6_highest_first exSigF 3 [7]).1,
   (C6_highest_first exSigF 3 [7]).2.1 3 (by decide)⟩

set_option maxRecDepth 4000 in
/-- C7: on the worked scenario (forces `[0,0,0,50,0,0,0,80,0,0]` N at
timestamps `0..900` ms) the pipeline finds exactly the peaks 3 and 7,
groups them into the single plateau `[3, 7]`, selects 7 as highest peak
and 2 as onset, and reports time-to-peak 0.5 s and RFD 160 N/s. -/
theorem C7_scenario :
    findPeaks exSig = [3, 7] ∧
    segmentPlateaus exTsF [3, 7] = some [[3, 7]] ∧
    highestPeakIdx exSigF 3 [7] = 7 ∧
    findStartIdx exSigF 3 = 2 ∧
    exResult.timeToPeak = 1 / 2 ∧
    exResult.rfdNPerS = some 160 ∧
    analyze exTsL exSig = some [exResult] := by
  refine ⟨?_, ?_, ?_, ?_, ?_, ?_, ?_⟩ <;> with_unfolding_all rfl

set_option maxRecDepth 4000 in
/-- C8 (counterexample): on the flat-topped signal `[0, 1, 1, 0]` the peak
finder reports index 1, whose force equals — does not strictly exceed —
its right neighbour's, refuting the strictly-greater-than-both-neighbours
claim. -/
theorem C8_counterexample :
    (1 : ℕ) ∈ findPeaks [0, 1, 1, 0] ∧
      ¬ ([0, 1, 1, 0] : List ℚ).getD 2 0 < ([0, 1, 1, 0] : List ℚ).getD 1 0 := by
  with_unfolding_all decide

/-- C8 (amended): every index returned by the peak finder is interior
(neither endpoint) and its force is ≥ the forces of both immediate
neighbours; flat maximal runs are reported at their midpoint, where a
neighbour's force can be equal rather than strictly smaller. -/
theorem C8_local_max (x : List ℚ) (m : ℕ) (hm : m ∈ findPeaks x) :
    1 ≤ m ∧ m + 1 < x.length ∧ x.getD (m - 1) 0 ≤ x.getD m 0 ∧
      x.getD (m + 1) 0 ≤ x.getD m 0 := by
  obtain ⟨h1, h2, h3, h4⟩ :=
    localMaximaAux_mem x (x.length - 1) x.length 1 (le_refl 1) m hm
  exact ⟨h1, by omega, h3, h4⟩

set_option maxRecDepth 4000 in
/-- C8 (witness): the amended theorem applied to the sharp peak of
`[0, 1, 0]` at index 1. -/
theorem C8_local_max_witness :
    (1 : ℕ) ≤ 1 ∧ 1 + 1 < ([0, 1, 0] : List ℚ).length ∧
      ([0, 1, 0] : List ℚ).getD 0 0 ≤ ([0, 1, 0] : List ℚ).getD 1 0 ∧
      ([0, 1, 0] : List ℚ).getD 2 0 ≤ ([0, 1, 0] : List ℚ).getD 1 0 :=
  C8_local_max [0, 1, 0] 1 (by with_unfolding_all decide)

/-- C9: converting a force to kg-equivalent and back (× 9.81, ÷ 9.81) is
an exact round trip over the rationals, and in every RFD row the Peak
Value (N) field equals 9.81 times the Peak Value (kg) field. -/
theorem C9_round_trip :
    (∀ v : ℚ, v * GRAVITY / GRAVITY = v) ∧
    (∀ (ts sig : ℕ → ℚ) (pl : List ℕ) (r : RFDResult),
      rfdOne ts sig pl = some r → r.peakValueN = GRAVITY * r.peakValueKg) := by
  constructor
  · intro v
    rw [mul_div_assoc, div_self gravity_ne_zero, mul_one]
  · intro ts sig pl r hr
    cases pl with
    | nil => simp [rfdOne] at hr
    | cons p0 rest =>
      simp only [rfdOne, Option.some.injEq] at hr
      subst hr
      dsimp only
      rw [mul_comm GRAVITY (sig (highestPeakIdx sig p0 rest) / GRAVITY),
        div_mul_cancel₀ _ gravity_ne_zero]

set_option maxRecDepth 4000 in
/-- C9 (witness): the round trip at 5 N, and the N/kg field relation on
the worked scenario's RFD row. -/
theorem C9_round_trip_witness :
    (5 : ℚ) * GRAVITY / GRAVITY = 5 ∧
      exResult.peakValueN = GRAVITY * exResult.peakValueKg :=
  ⟨C9_round_trip.1 5,
   C9_round_trip.2 exTsF exSigF [3, 7] exResult (by with_unfolding_all rfl)⟩

/-- C10: for every plateau built by the segmenter from the found peaks,
the onset index is ≤ the plateau's first peak index, which is ≤ the
highest-peak index; hence with non-decreasing timestamps the RFD row's
time-to-peak is never negative. -/
theorem C10_time_nonneg (ts : ℕ → ℚ) (sig : List ℚ) (hts : Monotone ts)
    (plateaus : List (List ℕ))
    (hseg : segmentPlateaus ts (findPeaks sig) = some plateaus)
    (p0 : ℕ) (rest : List ℕ) (hmem : p0 :: rest ∈ plateaus) (r : RFDResult)
    (hr : rfdOne ts (fun i => sig.getD i 0) (p0 :: rest) = some r) :
    findStartIdx (fun i => sig.getD i 0) p0 ≤ p0 ∧
    p0 ≤ highestPeakIdx (fun i => sig.getD i 0) p0 rest ∧
    0 ≤ r.timeToPeak := by
  have h1 : findStartIdx (fun i => sig.getD i 0) p0 ≤ p0 :=
    scanBack_le _ p0 p0 (le_refl p0)
  have hpair : List.Pairwise (fun a b => a < b) (p0 :: rest) := by
    cases hpk : findPeaks sig with
    | nil => rw [hpk] at hseg; simp [segmentPlateaus] at hseg
    | cons q qs =>
      rw [hpk] at hseg
      simp only [segmentPlateaus, Option.some.injEq] at hseg
      subst hseg
      have hsub := mem_flatten_sublist hmem
      rw [segmentAux_flatten] at hsub
      have hpq : List.Pairwise (fun a b => a < b) (q :: qs) := by
        rw [← hpk]
        exact findPeaks_pairwise sig
      exact List.Pairwise.sublist hsub hpq
  have h2 : p0 ≤ highestPeakIdx (fun i => sig.getD i 0) p0 rest := by
    rcases List.mem_cons.mp
        (maxByKeyAux_mem (fun idx => sig.getD idx 0) rest p0) with hEq | hIn
    · exact le_of_eq hEq.symm
    · exact le_of_lt ((List.pairwise_cons.mp hpair).1 _ hIn)
  refine ⟨h1, h2, ?_⟩
  simp only [rfdOne, Option.some.injEq] at hr
  subst hr
  dsimp only
  rw [timeToPeakOf]
  apply div_nonneg
  · rw [sub_nonneg]
    exact hts (le_trans h1 h2)
  · norm_num

set_option maxRecDepth 4000 in
/-- C10 (witness): the theorem applied to the worked scenario's plateau
under the globally non-decreasing timestamps `i ↦ 100·i`. -/
theorem C10_time_nonneg_witness :
    findStartIdx (fun i => exSig.getD i 0) 3 ≤ 3 ∧
      3 ≤ highestPeakIdx (fun i => exSig.getD i 0) 3 [7] ∧
      0 ≤ exResult.timeToPeak :=
  C10_time_nonneg exTsLin exSig monotone_exTsLin [[3, 7]]
    (by with_unfolding_all rfl) 3 [7]
    (by decide) exResult (by with_unfolding_all rfl)

end ClimbingAnalysis
